import Mathlib

/-!
Verification of the people_board entry-management core: a shallow embedding of
the server request handlers (create / list / update / delete over a
prefix-queryable key-value store), the client-side entry-form and edit-dialog
logic, and the client-side filter / CSV-export engine, together with theorems
settling the frozen specification claims.
-/

/-! ### String utilities modelling the JavaScript string primitives used -/

/-- Model of JS `needle.isPrefixOf hay` style matching: the first list is an
initial segment of the second.  Used to model `String.startsWith` / key-prefix
queries. -/
def leadsWith : List Char → List Char → Bool
  | [], _ => true
  | _ :: _, [] => false
  | p :: ps, c :: cs => p == c && leadsWith ps cs

/-- Model of JS `key.startsWith(pat)`. -/
def strStartsWith (s pat : String) : Bool :=
  leadsWith pat.data s.data

/-- Occurrence of a pattern anywhere in a list; helper for `strContainsSub`. -/
def occursIn (pat : List Char) : List Char → Bool
  | [] => leadsWith pat []
  | c :: cs => leadsWith pat (c :: cs) || occursIn pat cs

/-- Model of JS `hay.includes(needle)`: contiguous-substring containment. -/
def strContainsSub (hay needle : String) : Bool :=
  occursIn needle.data hay.data

/-- Model of JS `s.trim()`: strip leading and trailing whitespace. -/
def strTrim (s : String) : String :=
  ⟨((s.data.dropWhile Char.isWhitespace).reverse.dropWhile Char.isWhitespace).reverse⟩

/-- Model of JS `s.replace(/\D/g, "")`: keep only decimal digits. -/
def stripNonDigits (s : String) : String :=
  ⟨s.data.filter Char.isDigit⟩

/-- Model of JS `s.toLowerCase()` (ASCII range). -/
def strToLower (s : String) : String :=
  ⟨s.data.map Char.toLower⟩

/-! ### Date model

The code stores `dateAdded` as an ISO 8601 string (`toISOString`, or a bare
`YYYY-MM-DD` from a date input) and compares dates by constructing JS `Date`
objects, which compare by their millisecond timestamp.  `parseDateMs` models
`new Date(s).getTime()` for such UTC ISO strings: a date-only string parses as
UTC midnight of that day. -/

def digitVal (c : Char) : Nat := c.toNat - 48

def natOfChars (cs : List Char) : Nat :=
  cs.foldl (fun acc c => acc * 10 + digitVal c) 0

def isLeapYear (y : Nat) : Bool :=
  (y % 4 == 0 && y % 100 != 0) || y % 400 == 0

def daysBeforeMonth (leap : Bool) (m : Nat) : Nat :=
  (match m with
   | 1 => 0 | 2 => 31 | 3 => 59 | 4 => 90 | 5 => 120 | 6 => 151 | 7 => 181
   | 8 => 212 | 9 => 243 | 10 => 273 | 11 => 304 | 12 => 334 | _ => 0)
  + (if leap && decide (3 ≤ m) then 1 else 0)

/-- Days since the Unix epoch (1970-01-01) of the civil date `y-m-d`
(valid for years from 1970 on). -/
def daysFromCivil (y m d : Nat) : Nat :=
  365 * (y - 1) + (y - 1) / 4 - (y - 1) / 100 + (y - 1) / 400
    + daysBeforeMonth (isLeapYear y) m + (d - 1) - 719162

/-- Model of `new Date(s).getTime()` for UTC ISO 8601 strings
(`YYYY-MM-DD` or `YYYY-MM-DDTHH:MM:SS.sssZ`), in milliseconds. -/
def parseDateMs (s : String) : Nat :=
  let cs := s.data
  let y := natOfChars (cs.take 4)
  let mo := natOfChars ((cs.drop 5).take 2)
  let d := natOfChars ((cs.drop 8).take 2)
  let tp := cs.drop 11
  let hh := natOfChars (tp.take 2)
  let mi := natOfChars ((tp.drop 3).take 2)
  let ss := natOfChars ((tp.drop 6).take 2)
  let ms := match tp.drop 8 with
    | '.' :: rest => natOfChars (rest.take 3)
    | _ => 0
  (((daysFromCivil y mo d * 24 + hh) * 60 + mi) * 60 + ss) * 1000 + ms

/-- Model of `new Date(s).toLocaleDateString()` under the `en-US` locale in the
UTC timezone: `M/D/YYYY` without leading zeroes, read off the UTC date part of
the ISO string. -/
def formatDateLocale (s : String) : String :=
  let cs := s.data
  let y := natOfChars (cs.take 4)
  let mo := natOfChars ((cs.drop 5).take 2)
  let d := natOfChars ((cs.drop 8).take 2)
  toString mo ++ "/" ++ toString d ++ "/" ++ toString y

/-! ### Data model -/

/-- A persisted contact record (`UserEntry` in `src/unnamed/part_003`). -/
structure Entry where
  id : String
  name : String
  mobile : String
  address : String
  dateAdded : String
  dateModified : Option String
  userId : String
deriving Repr, DecidableEq

/-- An authenticated caller as resolved from the bearer token:
`user.id` and `user.user_metadata?.role`. -/
structure AuthUser where
  id : String
  role : Option String
deriving Repr, DecidableEq

/-- `user.user_metadata?.role === "super_admin"`. -/
def isSuperAdmin (u : AuthUser) : Bool :=
  u.role == some "super_admin"

/-! ### Key-value store

Modelled from the spec: the `kv_store` module imported by the server is not
under `src/`; per the spec (section 2) it is an external prefix-queryable
persistent map from string key to JSON value with upsert (`set`), delete
(`del`) and prefix query (`getByPrefix`, returning the stored values whose key
starts with the given prefix). -/

/-- The store: an association list of key / entry pairs. -/
abbrev Store := List (String × Entry)

/-- Upsert: replace the value at `k` if the key is present, else insert. -/
def kvSet (st : Store) (k : String) (v : Entry) : Store :=
  match st with
  | [] => [(k, v)]
  | q :: rest => if q.1 == k then (k, v) :: rest else q :: kvSet rest k v

/-- Delete the binding at key `k` (no-op if absent). -/
def kvDel (st : Store) (k : String) : Store :=
  st.filter (fun p => !(p.1 == k))

/-- All stored values whose key starts with the given prefix string. -/
def kvGetByPrefix (st : Store) (pre : String) : List Entry :=
  (st.filter (fun p => strStartsWith p.1 pre)).map Prod.snd

/-- Lookup of the value stored at an exact key. -/
def kvLookup (st : Store) (k : String) : Option Entry :=
  (st.find? (fun p => p.1 == k)).map Prod.snd

/-- The owner-namespaced storage key: `user_entry:{userId}:{entryId}`. -/
def mkKey (userId entryId : String) : String :=
  "user_entry:" ++ userId ++ ":" ++ entryId

/-- The owner namespace used by the list handler: `user_entry:{userId}:`. -/
def nsOf (userId : String) : String :=
  "user_entry:" ++ userId ++ ":"

/-! ### Server handlers (src/src/supabase/functions/server/index.tsx) -/

inductive CreateResult where
  | success
deriving Repr, DecidableEq

/-- POST /user-entries: stores the request payload as given under
`user_entry:{caller.id}:{entry.id}` with no field validation and returns
success. -/
def createEntry (caller : AuthUser) (entry : Entry) (st : Store) :
    Store × CreateResult :=
  (kvSet st (mkKey caller.id entry.id) entry, .success)

/-- A PUT request body: JS object spread semantics, every field optional. -/
structure UpdatePayload where
  id : Option String := none
  name : Option String := none
  mobile : Option String := none
  address : Option String := none
  dateAdded : Option String := none
  dateModified : Option String := none
  userId : Option String := none
deriving Repr, DecidableEq

inductive UpdateResult where
  | forbidden
  | notFound
  | updated (e : Entry)
deriving Repr, DecidableEq

/-- `{...existingEntry, ...updatedEntry, id: entryId, userId: originalUserId,
dateModified: new Date().toISOString()}`. -/
def applyUpdate (existing : Entry) (p : UpdatePayload) (entryId now : String) :
    Entry :=
  { id := entryId
    name := p.name.getD existing.name
    mobile := p.mobile.getD existing.mobile
    address := p.address.getD existing.address
    dateAdded := p.dateAdded.getD existing.dateAdded
    dateModified := some now
    userId := existing.userId }

/-- PUT /user-entries/:entryId: super-admin only; scans the full entry prefix
for a record whose `id` field matches, merges the payload while forcing `id`
and `userId`, stamps `dateModified`, and writes under the key re-derived from
the found record's `userId`. -/
def updateEntry (caller : AuthUser) (entryId : String) (payload : UpdatePayload)
    (now : String) (st : Store) : Store × UpdateResult :=
  if isSuperAdmin caller then
    match (kvGetByPrefix st "user_entry:").find? (fun e => e.id == entryId) with
    | none => (st, .notFound)
    | some existing =>
      let merged := applyUpdate existing payload entryId now
      (kvSet st (mkKey existing.userId entryId) merged, .updated merged)
  else (st, .forbidden)

inductive DeleteResult where
  | forbidden
  | notFound
  | deleted
deriving Repr, DecidableEq

/-- DELETE /user-entries/:entryId: super-admin only; scans the full entry
prefix for a record whose `id` field matches and deletes the key re-derived
from the found record's `userId`. -/
def deleteEntry (caller : AuthUser) (entryId : String) (st : Store) :
    Store × DeleteResult :=
  if isSuperAdmin caller then
    match (kvGetByPrefix st "user_entry:").find? (fun e => e.id == entryId) with
    | none => (st, .notFound)
    | some existing => (kvDel st (mkKey existing.userId entryId), .deleted)
  else (st, .forbidden)

/-- Descending order on `dateAdded` timestamps, as used by the list handler's
sort comparator `(a, b) => new Date(b.dateAdded) - new Date(a.dateAdded)`. -/
def dateDescRel (a b : Entry) : Prop :=
  parseDateMs b.dateAdded ≤ parseDateMs a.dateAdded

instance : DecidableRel dateDescRel :=
  fun a b => Nat.decLe (parseDateMs b.dateAdded) (parseDateMs a.dateAdded)

instance : IsTotal Entry dateDescRel :=
  ⟨fun a b => Nat.le_total (parseDateMs b.dateAdded) (parseDateMs a.dateAdded)⟩

instance : IsTrans Entry dateDescRel :=
  ⟨fun _ _ _ hab hbc => Nat.le_trans hbc hab⟩

/-- GET /user-entries: a super admin gets every entry under `user_entry:`,
any other caller gets the entries under their own namespace; the result is
sorted descending by `dateAdded` (stable sort, modelling the engine's stable
`Array.prototype.sort`). -/
def listEntries (caller : AuthUser) (st : Store) : List Entry :=
  let entries :=
    if isSuperAdmin caller then kvGetByPrefix st "user_entry:"
    else kvGetByPrefix st (nsOf caller.id)
  List.insertionSort dateDescRel entries

/-! ### Client-side filter and export engine (src/src/components/DashboardScreen.tsx) -/

/-- The text-search predicate of `filterEntries`: the lowercased term against
the lowercased `name` and `address` but the raw `mobile`. -/
def textMatches (searchTerm : String) (e : Entry) : Bool :=
  let term := strToLower searchTerm
  strContainsSub (strToLower e.name) term ||
  strContainsSub e.mobile term ||
  strContainsSub (strToLower e.address) term

/-- `filterEntries`: text search, then from-date, then to-date, each stage
skipped when its parameter is the empty string (JS falsiness of a string). -/
def filterEntries (entries : List Entry)
    (searchTerm dateFrom dateTo : String) : List Entry :=
  let f1 := if searchTerm = "" then entries
    else entries.filter (textMatches searchTerm)
  let f2 := if dateFrom = "" then f1
    else f1.filter (fun e => parseDateMs dateFrom ≤ parseDateMs e.dateAdded)
  if dateTo = "" then f2
  else f2.filter (fun e => parseDateMs e.dateAdded ≤ parseDateMs dateTo)

/-- `entry.address.replace(/"/g, graph of doubled quotes)`: escape embedded
double quotes by doubling them. -/
def csvEscape (s : String) : String :=
  ⟨s.data.foldr (fun c acc => if c = '\"' then '\"' :: '\"' :: acc else c :: acc) []⟩

/-- One data row of `exportCSV`: quoted raw `name`, bare `mobile`, quoted
escaped `address`, locale-formatted date, joined by commas. -/
def csvRow (e : Entry) : String :=
  "\"" ++ e.name ++ "\"" ++ "," ++ e.mobile ++ "," ++
    "\"" ++ csvEscape e.address ++ "\"" ++ "," ++ formatDateLocale e.dateAdded

/-- `exportCSV` over the currently filtered entries: header row then one row
per entry, joined by newlines. -/
def exportCSV (entries : List Entry) : String :=
  String.intercalate "\n" ("Name,Mobile No,Address,Date Added" :: entries.map csvRow)

/-! ### Client-side entry form (UserEntryScreen in src/unnamed/part_001) -/

/-- `validateMobile`: strip non-digits, accept length 10 to 15. -/
def validateMobile (m : String) : Bool :=
  decide (10 ≤ (stripNonDigits m).length) && decide ((stripNonDigits m).length ≤ 15)

/-- The entry the form posts on save: trimmed name and address, digit-stripped
mobile, fresh id, `dateAdded` stamped now, `userId` from the signed-in user. -/
def formEntry (u : AuthUser) (freshId rawName rawMobile rawAddress now : String) :
    Entry :=
  { id := freshId
    name := strTrim rawName
    mobile := stripNonDigits rawMobile
    address := strTrim rawAddress
    dateAdded := now
    dateModified := none
    userId := u.id }

/-- `UserEntryScreen.handleSave`: posts the entry only when `validateMobile`
passes; otherwise the store is untouched. -/
def formSave (u : AuthUser) (freshId rawName rawMobile rawAddress now : String)
    (st : Store) : Store :=
  if validateMobile rawMobile then
    (createEntry u (formEntry u freshId rawName rawMobile rawAddress now) st).1
  else st

/-! ### Client-side edit dialog (EditPersonDialog in src/unnamed/part_001) -/

/-- Character class of the dialog's mobile pattern: digits, whitespace,
dashes and parentheses. -/
def mobileClassChar (c : Char) : Bool :=
  c.isDigit || c.isWhitespace || c == '-' || c == '(' || c == ')'

/-- The dialog's mobile test, an anchored match of an optional leading plus
sign and then at least ten characters of the class above (the class does not
contain the plus sign, so a leading plus is always the optional one). -/
def mobilePatternOk (s : String) : Bool :=
  let l := if s.data.head? = some '+' then s.data.tail else s.data
  decide (10 ≤ l.length) && l.all mobileClassChar

/-- `EditPersonDialog.validateForm`: trimmed name nonempty and at least 2
characters, trimmed mobile nonempty and matching the pattern, trimmed address
nonempty and at least 10 characters. -/
def dialogValid (nm mb ad : String) : Bool :=
  !(strTrim nm == "") && decide (2 ≤ (strTrim nm).length) &&
  !(strTrim mb == "") && mobilePatternOk (strTrim mb) &&
  !(strTrim ad == "") && decide (10 ≤ (strTrim ad).length)

/-- The PUT body the dialog sends: the three trimmed fields, nothing else. -/
def dialogPayload (nm mb ad : String) : UpdatePayload :=
  { name := some (strTrim nm)
    mobile := some (strTrim mb)
    address := some (strTrim ad) }

/-- `EditPersonDialog.handleSave`: sends the PUT only when validation passes;
otherwise the store is untouched. -/
def dialogSave (adm : AuthUser) (eid nm mb ad now : String) (st : Store) : Store :=
  if dialogValid nm mb ad then
    (updateEntry adm eid (dialogPayload nm mb ad) now st).1
  else st

/-! ### Reachable stores -/

/-- A raw API operation with an arbitrary client-supplied payload. -/
inductive ApiOp where
  | create (caller : AuthUser) (e : Entry)
  | update (caller : AuthUser) (entryId : String) (p : UpdatePayload) (now : String)
  | remove (caller : AuthUser) (entryId : String)

def apiStep (st : Store) : ApiOp → Store
  | .create caller e => (createEntry caller e st).1
  | .update caller entryId p now => (updateEntry caller entryId p now st).1
  | .remove caller entryId => (deleteEntry caller entryId st).1

/-- The store after a sequence of raw API operations from the empty store. -/
def apiReach (ops : List ApiOp) : Store :=
  ops.foldl apiStep []

/-- A client-mediated operation: create via the entry form, update via the
edit dialog, or delete. -/
inductive ClientOp where
  | form (u : AuthUser) (freshId rawName rawMobile rawAddress now : String)
  | dialog (adm : AuthUser) (entryId nm mb ad now : String)
  | remove (u : AuthUser) (entryId : String)

def clientStep (st : Store) : ClientOp → Store
  | .form u freshId rawName rawMobile rawAddress now =>
    formSave u freshId rawName rawMobile rawAddress now st
  | .dialog adm entryId nm mb ad now => dialogSave adm entryId nm mb ad now st
  | .remove u entryId => (deleteEntry u entryId st).1

/-- The store after a sequence of client-mediated operations from the empty
store. -/
def clientReach (ops : List ClientOp) : Store :=
  ops.foldl clientStep []

/-- The key-derivation invariant of the spec: every binding's key is the owner
namespace of the value's `userId` plus the value's `id`. -/
def Coherent (st : Store) : Prop :=
  ∀ p ∈ st, p.1 = mkKey p.2.userId p.2.id

instance (st : Store) : Decidable (Coherent st) :=
  inferInstanceAs (Decidable (∀ p ∈ st, p.1 = mkKey p.2.userId p.2.id))

/-- A raw create is honest when the payload's `userId` is the caller's own id
(as the entry form in fact does); updates and deletes carry no ownership
field. -/
def honestOp : ApiOp → Bool
  | .create caller e => e.userId == caller.id
  | _ => true

/-! ### Spec-level predicates and decidability -/

/-- True of a string whose characters never include the key separator. -/
def colonFree (s : String) : Bool :=
  s.data.all (fun c => !(c == ':'))

/-- Substring as the spec means it: the pattern occurs contiguously. -/
def SubStr (pat s : String) : Prop :=
  ∃ l r, s.data = l ++ pat.data ++ r

/-- The amended text-search predicate: the lowercased term occurs in the
lowercased `name`, in the raw `mobile`, or in the lowercased `address`. -/
def TextMatch (term : String) (e : Entry) : Prop :=
  SubStr (strToLower term) (strToLower e.name) ∨
  SubStr (strToLower term) e.mobile ∨
  SubStr (strToLower term) (strToLower e.address)

/-- The amended date-range predicate: timestamp bounds, inclusive, an empty
bound string meaning unbounded on that side. -/
def InRange (fromS toS : String) (e : Entry) : Prop :=
  (fromS = "" ∨ parseDateMs fromS ≤ parseDateMs e.dateAdded) ∧
  (toS = "" ∨ parseDateMs e.dateAdded ≤ parseDateMs toS)

instance (fromS toS : String) (e : Entry) : Decidable (InRange fromS toS e) :=
  inferInstanceAs (Decidable (_ ∧ _))

/-- Every stored mobile, whatever its provenance, matches the edit dialog
pattern (an optional plus then at least ten digit / whitespace / dash /
parenthesis characters). -/
def MobileInv (st : Store) : Prop :=
  ∀ p ∈ st, mobilePatternOk p.2.mobile = true

instance (st : Store) : Decidable (MobileInv st) :=
  inferInstanceAs (Decidable (∀ p ∈ st, mobilePatternOk p.2.mobile = true))

/-! ### Concrete fixtures for witnesses and counterexamples -/

def admSuper : AuthUser := ⟨"A0", some "super_admin"⟩

def usrOne : AuthUser := ⟨"U1", some "user"⟩

def entryOne : Entry :=
  ⟨"e1", "Alice", "1234567890", "1 Main Street Apt 4", "2024-01-01", none, "U1"⟩

def entryTwo : Entry :=
  ⟨"e2", "Bob", "0987654321", "2 Oak Avenue Unit 9", "2024-01-02", none, "U2"⟩

def stTwo : Store := [(mkKey "U1" "e1", entryOne), (mkKey "U2" "e2", entryTwo)]

/-- An update attempt that also tries to override `id` and `userId`. -/
def hijackPayload : UpdatePayload :=
  { name := some "Carol", id := some "HIJACK", userId := some "EVIL" }

/-- A raw create whose body claims another owner than the caller. -/
def rogueOps : List ApiOp :=
  [ApiOp.create usrOne
    ⟨"e1", "Mallory", "1234567890", "1 Evil Street", "2024-01-01", none, "U2"⟩]

/-- An honest create, an update and a delete. -/
def goodOps : List ApiOp :=
  [ApiOp.create usrOne entryOne,
   ApiOp.update admSuper "e1" hijackPayload "2024-01-03",
   ApiOp.remove admSuper "e1"]

/-- A form create followed by an edit-dialog update whose mobile keeps its
dashes. -/
def dashOps : List ClientOp :=
  [ClientOp.form usrOne "e1" "Alice" "1234567890" "1 Main Street Apt 4"
    "2024-01-01T00:00:00.000Z",
   ClientOp.dialog admSuper "e1" "Alice" "123-456-7890" "1 Main Street Apt 4"
    "2024-01-02T00:00:00.000Z"]

/-- An entry none of whose fields contains a space. -/
def plainE : Entry := ⟨"e1", "John", "1234567890", "X", "2024-01-01", none, "U1"⟩

/-- An entry whose raw mobile contains uppercase letters. -/
def bizE : Entry := ⟨"e2", "Biz", "1800FLOWERS", "X", "2024-01-01", none, "U1"⟩

/-- The entry of the export claim: a name with embedded double quotes. -/
def claimCsvEntry : Entry :=
  ⟨"x", "A \"B\"", "5551234567", "1 Main St", "2024-01-01", none, "u"⟩

/-- An entry timestamped at noon of the to-bound day. -/
def onBoundaryE : Entry :=
  ⟨"e1", "Ann", "1234567890", "X", "2024-01-31T12:00:00.000Z", none, "U1"⟩

/-! ### Store lemmas -/

theorem kvLookup_cons (q : String × Entry) (rest : Store) (k : String) :
    kvLookup (q :: rest) k = if q.1 = k then some q.2 else kvLookup rest k := by
  by_cases h : q.1 = k
  · simp [kvLookup, List.find?_cons_of_pos, h]
  · simp [kvLookup, List.find?_cons_of_neg, h]

theorem kvLookup_kvSet_self (st : Store) (k : String) (v : Entry) :
    kvLookup (kvSet st k v) k = some v := by
  induction st with
  | nil => simp [kvSet, kvLookup_cons, kvLookup]
  | cons q rest ih =>
    by_cases h : q.1 = k
    · simp [kvSet, h, kvLookup_cons]
    · simp only [kvSet, beq_iff_eq, h, if_false]
      rw [kvLookup_cons, if_neg h]
      exact ih

theorem kvLookup_kvSet_ne (st : Store) (k : String) (v : Entry) (k' : String)
    (h : k' ≠ k) :
    kvLookup (kvSet st k v) k' = kvLookup st k' := by
  induction st with
  | nil => simp [kvSet, kvLookup_cons, kvLookup, Ne.symm h]
  | cons q rest ih =>
    by_cases hq : q.1 = k
    · rw [kvSet, if_pos (by simpa using hq), kvLookup_cons, kvLookup_cons,
        if_neg (by simpa using Ne.symm h), hq, if_neg (Ne.symm h)]
    · rw [kvSet, if_neg (by simpa using hq), kvLookup_cons, kvLookup_cons]
      by_cases hq' : q.1 = k'
      · simp [hq']
      · rw [if_neg hq', if_neg hq']
        exact ih

theorem mem_kvSet (st : Store) (k : String) (v : Entry) (p : String × Entry)
    (hp : p ∈ kvSet st k v) : p = (k, v) ∨ p ∈ st := by
  induction st with
  | nil => simpa [kvSet] using hp
  | cons q rest ih =>
    by_cases h : q.1 = k
    · simp only [kvSet, beq_iff_eq, h, if_true] at hp
      rcases List.mem_cons.mp hp with h1 | h2
      · exact Or.inl h1
      · exact Or.inr (List.mem_cons_of_mem _ h2)
    · simp only [kvSet, beq_iff_eq, h, if_false] at hp
      rcases List.mem_cons.mp hp with h1 | h2
      · exact Or.inr (h1 ▸ List.mem_cons_self _ _)
      · rcases ih h2 with h3 | h4
        · exact Or.inl h3
        · exact Or.inr (List.mem_cons_of_mem _ h4)

theorem mem_kvDel (st : Store) (k : String) (p : String × Entry)
    (hp : p ∈ kvDel st k) : p ∈ st ∧ p.1 ≠ k := by
  have h := List.mem_filter.mp hp
  refine ⟨h.1, ?_⟩
  simpa using h.2

theorem mem_kvGetByPrefix (st : Store) (pre : String) (e : Entry) :
    e ∈ kvGetByPrefix st pre ↔
      ∃ k, (k, e) ∈ st ∧ strStartsWith k pre = true := by
  constructor
  · intro h
    rcases List.mem_map.mp h with ⟨p, hp, hpe⟩
    rcases List.mem_filter.mp hp with ⟨hmem, hpre⟩
    refine ⟨p.1, ?_, by simpa using hpre⟩
    have : (p.1, p.2) ∈ st := by simpa using hmem
    simpa [hpe] using this
  · rintro ⟨k, hmem, hpre⟩
    exact List.mem_map.mpr ⟨(k, e), List.mem_filter.mpr ⟨hmem, hpre⟩, rfl⟩

/-- C3: a valid-token caller whose role is not `super_admin` gets `Forbidden`
from both Update and Delete, whatever the target id, payload and store; the
returned store is the input store unchanged. -/
theorem nonadmin_mutation_forbidden (caller : AuthUser) (entryId : String)
    (p : UpdatePayload) (now : String) (st : Store)
    (h : isSuperAdmin caller = false) :
    updateEntry caller entryId p now st = (st, UpdateResult.forbidden) ∧
    deleteEntry caller entryId st = (st, DeleteResult.forbidden) := by
  constructor <;> simp [updateEntry, deleteEntry, h]

/-- C3 witness: a concrete ordinary user is refused on a concrete store. -/
theorem nonadmin_mutation_forbidden_witness :
    updateEntry (AuthUser.mk "U1" (some "user")) "e1" {} "2024-01-02" [] =
      ([], UpdateResult.forbidden) ∧
    deleteEntry (AuthUser.mk "U1" (some "user")) "e1" [] =
      ([], DeleteResult.forbidden) :=
  nonadmin_mutation_forbidden (AuthUser.mk "U1" (some "user")) "e1" {}
    "2024-01-02" [] (by decide)

/-- C10: the create handler performs no field validation: any payload under a
valid token succeeds and is persisted exactly as given under the caller-keyed
namespace, leaving every other key unchanged (so an empty name, a non-digit
mobile or a mobile of any length, and an empty address are all stored
verbatim; the 10-to-15-digit rule lives only in the client form). -/
theorem create_accepts_any_payload (caller : AuthUser) (e : Entry) (st : Store) :
    (createEntry caller e st).2 = CreateResult.success ∧
    kvLookup (createEntry caller e st).1 (mkKey caller.id e.id) = some e ∧
    ∀ k, k ≠ mkKey caller.id e.id →
      kvLookup (createEntry caller e st).1 k = kvLookup st k := by
  refine ⟨rfl, ?_, ?_⟩
  · exact kvLookup_kvSet_self st (mkKey caller.id e.id) e
  · intro k hk
    exact kvLookup_kvSet_ne st (mkKey caller.id e.id) e k hk

/-- C2: a successful Update whose payload carries no `dateAdded` and no
`dateModified` key (any `name` / `mobile` / `address`, and any attempted
`id` / `userId`) returns the existing record with the supplied fields merged
in, `id` and `userId` forced to the pre-update values, `dateAdded` unchanged
and `dateModified` stamped with the update time; the record is persisted under
the owner-namespaced key derived from the original `userId`, and every other
key of the store is unchanged. -/
theorem update_merges_and_preserves (caller : AuthUser) (entryId now : String)
    (p : UpdatePayload) (st : Store) (existing : Entry)
    (hadmin : isSuperAdmin caller = true)
    (hfind : (kvGetByPrefix st "user_entry:").find? (fun e => e.id == entryId) =
      some existing)
    (hpa : p.dateAdded = none) (hpm : p.dateModified = none) :
    (updateEntry caller entryId p now st).2 =
      UpdateResult.updated (applyUpdate existing p entryId now) ∧
    (applyUpdate existing p entryId now).id = existing.id ∧
    (applyUpdate existing p entryId now).userId = existing.userId ∧
    (applyUpdate existing p entryId now).dateAdded = existing.dateAdded ∧
    (applyUpdate existing p entryId now).dateModified = some now ∧
    (applyUpdate existing p entryId now).name = p.name.getD existing.name ∧
    (applyUpdate existing p entryId now).mobile = p.mobile.getD existing.mobile ∧
    (applyUpdate existing p entryId now).address = p.address.getD existing.address ∧
    kvLookup (updateEntry caller entryId p now st).1 (mkKey existing.userId entryId) =
      some (applyUpdate existing p entryId now) ∧
    ∀ k, k ≠ mkKey existing.userId entryId →
      kvLookup (updateEntry caller entryId p now st).1 k = kvLookup st k := by
  have hid : existing.id = entryId := by
    have := List.find?_some hfind
    simpa using this
  have hst : (updateEntry caller entryId p now st).1 =
      kvSet st (mkKey existing.userId entryId) (applyUpdate existing p entryId now) := by
    simp [updateEntry, hadmin, hfind]
  have hres : (updateEntry caller entryId p now st).2 =
      UpdateResult.updated (applyUpdate existing p entryId now) := by
    simp [updateEntry, hadmin, hfind]
  refine ⟨hres, by simp [applyUpdate, hid], rfl, by simp [applyUpdate, hpa],
    rfl, rfl, rfl, rfl, ?_, ?_⟩
  · rw [hst]
    exact kvLookup_kvSet_self st _ _
  · intro k hk
    rw [hst]
    exact kvLookup_kvSet_ne st _ _ k hk

/-- C2 witness: a concrete super admin updates `e1` with a payload that also
tries to hijack `id` and `userId`; the result keeps the original identity. -/
theorem update_merges_and_preserves_witness :
    (updateEntry admSuper "e1" hijackPayload "2024-01-03" stTwo).2 =
      UpdateResult.updated (applyUpdate entryOne hijackPayload "e1" "2024-01-03") ∧
    (applyUpdate entryOne hijackPayload "e1" "2024-01-03").id = entryOne.id ∧
    (applyUpdate entryOne hijackPayload "e1" "2024-01-03").userId = entryOne.userId ∧
    (applyUpdate entryOne hijackPayload "e1" "2024-01-03").dateAdded =
      entryOne.dateAdded ∧
    (applyUpdate entryOne hijackPayload "e1" "2024-01-03").dateModified =
      some "2024-01-03" ∧
    (applyUpdate entryOne hijackPayload "e1" "2024-01-03").name =
      hijackPayload.name.getD entryOne.name ∧
    (applyUpdate entryOne hijackPayload "e1" "2024-01-03").mobile =
      hijackPayload.mobile.getD entryOne.mobile ∧
    (applyUpdate entryOne hijackPayload "e1" "2024-01-03").address =
      hijackPayload.address.getD entryOne.address ∧
    kvLookup (updateEntry admSuper "e1" hijackPayload "2024-01-03" stTwo).1
      (mkKey entryOne.userId "e1") =
      some (applyUpdate entryOne hijackPayload "e1" "2024-01-03") ∧
    ∀ k, k ≠ mkKey entryOne.userId "e1" →
      kvLookup (updateEntry admSuper "e1" hijackPayload "2024-01-03" stTwo).1 k =
        kvLookup stTwo k :=
  update_merges_and_preserves admSuper "e1" "2024-01-03" hijackPayload stTwo
    entryOne (by decide) (by decide) (by decide) (by decide)

/-! ### Key-prefix lemmas -/

theorem leadsWith_append_left (xs ys zs : List Char) :
    leadsWith (xs ++ ys) (xs ++ zs) = leadsWith ys zs := by
  induction xs with
  | nil => rfl
  | cons c cs ih => simp [leadsWith, ih]

theorem leadsWith_self_append (xs ys : List Char) :
    leadsWith xs (xs ++ ys) = true := by
  induction xs with
  | nil => rfl
  | cons c cs ih => simp [leadsWith, ih]

theorem leadsWith_colon_iff (cs us rest : List Char)
    (hc : ':' ∉ cs) (hu : ':' ∉ us) :
    leadsWith (cs ++ [':']) (us ++ ':' :: rest) = true ↔ cs = us := by
  induction cs generalizing us with
  | nil =>
    cases us with
    | nil => simp [leadsWith]
    | cons u us' =>
      have h1 : ¬ (':' = u) := fun h => hu (h ▸ List.mem_cons_self u us')
      simp [leadsWith, h1]
  | cons c cs' ih =>
    have hc' : ':' ∉ cs' := fun h => hc (List.mem_cons_of_mem _ h)
    have hch : ¬ (c = ':') := fun h => hc (h ▸ List.mem_cons_self c cs')
    cases us with
    | nil => simp [leadsWith, hch]
    | cons u us' =>
      have hu' : ':' ∉ us' := fun h => hu (List.mem_cons_of_mem _ h)
      by_cases hcu : c = u
      · subst hcu
        simp [leadsWith, ih us' hc' hu']
      · simp [leadsWith, hcu]

theorem data_mkKey (u i : String) :
    (mkKey u i).data = "user_entry:".data ++ (u.data ++ (':' :: i.data)) := by
  have hcolon : (":" : String).data = [':'] := rfl
  simp [mkKey, String.data_append, hcolon, List.append_assoc]

theorem data_nsOf (u : String) :
    (nsOf u).data = "user_entry:".data ++ (u.data ++ [':']) := by
  have hcolon : (":" : String).data = [':'] := rfl
  simp [nsOf, String.data_append, hcolon, List.append_assoc]

theorem strStartsWith_mkKey_entry (u i : String) :
    strStartsWith (mkKey u i) "user_entry:" = true := by
  rw [strStartsWith, data_mkKey]
  exact leadsWith_self_append _ _

theorem colonFree_notMem (s : String) (h : colonFree s = true) : ':' ∉ s.data := by
  intro hmem
  have := List.all_eq_true.mp h ':' hmem
  simp at this

theorem strStartsWith_mkKey_ns (u i c : String)
    (hu : colonFree u = true) (hc : colonFree c = true) :
    strStartsWith (mkKey u i) (nsOf c) = true ↔ u = c := by
  rw [strStartsWith, data_mkKey, data_nsOf, leadsWith_append_left,
    leadsWith_colon_iff c.data u.data i.data (colonFree_notMem c hc)
      (colonFree_notMem u hu)]
  exact ⟨fun h => (String.ext h).symm, fun h => congrArg String.data h.symm⟩

/-- C1: over any coherent store (keys derived from each record's `userId` and
`id`, ids colon-free), List returns a result sorted descending by `dateAdded`;
a privileged (super_admin) caller receives exactly the entries of every owner
and any other caller exactly the entries of their own namespace, i.e. those
with `userId` equal to the caller's id (as multisets, via permutation). -/
theorem list_returns_role_scoped_sorted (caller : AuthUser) (st : Store)
    (hcoh : Coherent st)
    (hcf : ∀ p ∈ st, colonFree p.2.userId = true)
    (hcaller : colonFree caller.id = true) :
    (listEntries caller st).Sorted dateDescRel ∧
    (isSuperAdmin caller = true →
      (listEntries caller st).Perm (st.map Prod.snd)) ∧
    (isSuperAdmin caller = false →
      (listEntries caller st).Perm
        ((st.filter (fun p => p.2.userId == caller.id)).map Prod.snd)) := by
  refine ⟨?_, ?_, ?_⟩
  · exact List.sorted_insertionSort dateDescRel _
  · intro hsa
    have hall : st.filter (fun p => strStartsWith p.1 "user_entry:") = st :=
      List.filter_eq_self.mpr (fun p hp => by
        rw [hcoh p hp]; exact strStartsWith_mkKey_entry _ _)
    have h1 : listEntries caller st =
        List.insertionSort dateDescRel (kvGetByPrefix st "user_entry:") := by
      simp [listEntries, hsa]
    rw [h1]
    have h2 : kvGetByPrefix st "user_entry:" = st.map Prod.snd := by
      rw [kvGetByPrefix, hall]
    rw [h2]
    exact List.perm_insertionSort dateDescRel _
  · intro hns
    have h1 : listEntries caller st =
        List.insertionSort dateDescRel (kvGetByPrefix st (nsOf caller.id)) := by
      simp [listEntries, hns]
    have h2 : st.filter (fun p => strStartsWith p.1 (nsOf caller.id)) =
        st.filter (fun p => p.2.userId == caller.id) :=
      List.filter_congr (fun p hp => by
        rw [hcoh p hp]
        apply Bool.eq_iff_iff.mpr
        rw [strStartsWith_mkKey_ns p.2.userId p.2.id caller.id (hcf p hp) hcaller,
          beq_iff_eq])
    rw [h1, kvGetByPrefix, h2]
    exact List.perm_insertionSort dateDescRel _

/-- C1 witness: on a concrete two-owner store the super admin sees both
entries and an ordinary user sees exactly their own. -/
theorem list_returns_role_scoped_sorted_witness :
    (listEntries admSuper stTwo).Sorted dateDescRel ∧
    (listEntries admSuper stTwo).Perm (stTwo.map Prod.snd) ∧
    (listEntries usrOne stTwo).Perm
      ((stTwo.filter (fun p => p.2.userId == usrOne.id)).map Prod.snd) := by
  have ha := list_returns_role_scoped_sorted admSuper stTwo (by decide) (by decide)
    (by decide)
  have hu := list_returns_role_scoped_sorted usrOne stTwo (by decide) (by decide)
    (by decide)
  exact ⟨ha.1, ha.2.1 (by decide), hu.2.2 (by decide)⟩

/-- C4: over a coherent store with globally unique entry ids, a successful
Delete of an id makes every further Update or Delete on that id by any
privileged caller return `NotFound` with the store unchanged (so a second
delete is `NotFound`, not success). -/
theorem delete_then_notFound (caller : AuthUser) (entryId : String)
    (st st' : Store)
    (hcoh : Coherent st)
    (hids : (st.map (fun p => p.2.id)).Nodup)
    (hdel : deleteEntry caller entryId st = (st', DeleteResult.deleted)) :
    (∀ (c2 : AuthUser) (p : UpdatePayload) (now : String),
      isSuperAdmin c2 = true →
        updateEntry c2 entryId p now st' = (st', UpdateResult.notFound)) ∧
    (∀ c2 : AuthUser, isSuperAdmin c2 = true →
      deleteEntry c2 entryId st' = (st', DeleteResult.notFound)) := by
  have hsa : isSuperAdmin caller = true := by
    by_contra h
    rw [deleteEntry, if_neg (by simpa using h)] at hdel
    exact DeleteResult.noConfusion (congrArg Prod.snd hdel)
  rw [deleteEntry, if_pos hsa] at hdel
  rcases hfind : (kvGetByPrefix st "user_entry:").find? (fun e => e.id == entryId)
    with _ | existing
  · rw [hfind] at hdel
    exact absurd (congrArg Prod.snd hdel) (by simp)
  rw [hfind] at hdel
  have hst' : st' = kvDel st (mkKey existing.userId entryId) :=
    (congrArg Prod.fst hdel).symm
  have hexid : existing.id = entryId := by
    simpa using List.find?_some hfind
  -- the pair that held the found record, and its key
  have hmem : existing ∈ kvGetByPrefix st "user_entry:" :=
    List.mem_of_find?_eq_some hfind
  rcases (mem_kvGetByPrefix st "user_entry:" existing).mp hmem with ⟨k0, hk0, _⟩
  have hk0key : k0 = mkKey existing.userId entryId := by
    have := hcoh (k0, existing) hk0
    simpa [hexid] using this
  -- after the delete no stored record carries the deleted id
  have hgone : ∀ e ∈ kvGetByPrefix st' "user_entry:", ¬ (e.id == entryId) = true := by
    intro e he hbeq
    rcases (mem_kvGetByPrefix st' "user_entry:" e).mp he with ⟨k, hkmem, _⟩
    rw [hst'] at hkmem
    have hkst := mem_kvDel st (mkKey existing.userId entryId) (k, e) hkmem
    have heid : e.id = entryId := by simpa using hbeq
    have hpair : (k, e) = (k0, existing) :=
      List.inj_on_of_nodup_map hids hkst.1 hk0
        (by simp [heid, hexid])
    have : k = mkKey existing.userId entryId := by
      rw [hk0key] at hpair
      exact congrArg Prod.fst hpair
    exact hkst.2 this
  have hfind' : (kvGetByPrefix st' "user_entry:").find? (fun e => e.id == entryId)
      = none :=
    List.find?_eq_none.mpr hgone
  constructor
  · intro c2 p now hsa2
    rw [updateEntry, if_pos hsa2, hfind']
  · intro c2 hsa2
    rw [deleteEntry, if_pos hsa2, hfind']

/-- C4 witness: deleting `e1` from the concrete two-entry store, then updating
and deleting `e1` again, yields `NotFound` both times with the store
unchanged. -/
theorem delete_then_notFound_witness :
    updateEntry admSuper "e1" hijackPayload "2024-01-04"
      [(mkKey "U2" "e2", entryTwo)] =
      ([(mkKey "U2" "e2", entryTwo)], UpdateResult.notFound) ∧
    deleteEntry admSuper "e1" [(mkKey "U2" "e2", entryTwo)] =
      ([(mkKey "U2" "e2", entryTwo)], DeleteResult.notFound) := by
  have h := delete_then_notFound admSuper "e1" stTwo
    [(mkKey "U2" "e2", entryTwo)] (by decide) (by decide) (by decide)
  exact ⟨h.1 admSuper hijackPayload "2024-01-04" (by decide),
    h.2 admSuper (by decide)⟩

/-! ### Reachability invariants -/

theorem coherent_kvSet (st : Store) (k : String) (v : Entry)
    (hcoh : Coherent st) (hk : k = mkKey v.userId v.id) :
    Coherent (kvSet st k v) := by
  intro p hp
  rcases mem_kvSet st k v p hp with h1 | h2
  · rw [h1]; exact hk
  · exact hcoh p h2

theorem coherent_kvDel (st : Store) (k : String) (hcoh : Coherent st) :
    Coherent (kvDel st k) :=
  fun p hp => hcoh p (mem_kvDel st k p hp).1

theorem coherent_updateEntry (caller : AuthUser) (entryId : String)
    (p : UpdatePayload) (now : String) (st : Store) (hcoh : Coherent st) :
    Coherent (updateEntry caller entryId p now st).1 := by
  rw [updateEntry]
  by_cases hsa : isSuperAdmin caller = true
  · rw [if_pos hsa]
    rcases hfind : (kvGetByPrefix st "user_entry:").find? (fun e => e.id == entryId)
      with _ | existing
    · rw [hfind]; exact hcoh
    · rw [hfind]; exact coherent_kvSet st _ _ hcoh rfl
  · rw [if_neg (by simpa using hsa)]
    exact hcoh

theorem coherent_deleteEntry (caller : AuthUser) (entryId : String)
    (st : Store) (hcoh : Coherent st) :
    Coherent (deleteEntry caller entryId st).1 := by
  rw [deleteEntry]
  by_cases hsa : isSuperAdmin caller = true
  · rw [if_pos hsa]
    rcases hfind : (kvGetByPrefix st "user_entry:").find? (fun e => e.id == entryId)
      with _ | existing
    · rw [hfind]; exact hcoh
    · rw [hfind]; exact coherent_kvDel st _ hcoh
  · rw [if_neg (by simpa using hsa)]
    exact hcoh

theorem coherent_apiStep (st : Store) (op : ApiOp)
    (hcoh : Coherent st) (hop : honestOp op = true) :
    Coherent (apiStep st op) := by
  cases op with
  | create caller e =>
    have he : e.userId = caller.id := by simpa [honestOp] using hop
    exact coherent_kvSet st _ e hcoh (by rw [he])
  | update caller entryId p now => exact coherent_updateEntry caller entryId p now st hcoh
  | remove caller entryId => exact coherent_deleteEntry caller entryId st hcoh

theorem coherent_foldl (ops : List ApiOp) :
    ∀ st : Store, Coherent st → (∀ op ∈ ops, honestOp op = true) →
      Coherent (ops.foldl apiStep st) := by
  induction ops with
  | nil => intro st hcoh _; exact hcoh
  | cons op rest ih =>
    intro st hcoh hops
    exact ih (apiStep st op)
      (coherent_apiStep st op hcoh (hops op (List.mem_cons_self _ _)))
      (fun o ho => hops o (List.mem_cons_of_mem _ ho))

/-- C5 counterexample: the create handler trusts the client-supplied `userId`
while keying by the caller, so one raw create by caller `U1` whose body claims
owner `U2` reaches a store in which a persisted key is not
`user_entry:{entry.userId}:{entry.id}`. -/
theorem create_trusts_client_userId :
    ∃ p ∈ apiReach rogueOps, p.1 ≠ mkKey p.2.userId p.2.id := by decide

/-- C5 amended: over any sequence of Create / Update / Delete operations in
which every create's payload carries the caller's own id as `userId` (as the
entry form does), every persisted key equals
`user_entry:{entry.userId}:{entry.id}`. -/
theorem api_reach_coherent (ops : List ApiOp)
    (h : ∀ op ∈ ops, honestOp op = true) : Coherent (apiReach ops) :=
  coherent_foldl ops [] (fun p hp => absurd hp (List.not_mem_nil p)) h

/-- C5 witness: a concrete honest create, update and delete sequence reaches
a coherent store. -/
theorem api_reach_coherent_witness : Coherent (apiReach goodOps) :=
  api_reach_coherent goodOps (by decide)

theorem mobileInv_kvSet (st : Store) (k : String) (v : Entry)
    (hinv : MobileInv st) (hv : mobilePatternOk v.mobile = true) :
    MobileInv (kvSet st k v) := by
  intro p hp
  rcases mem_kvSet st k v p hp with h1 | h2
  · rw [h1]; exact hv
  · exact hinv p h2

theorem mobileInv_kvDel (st : Store) (k : String) (hinv : MobileInv st) :
    MobileInv (kvDel st k) :=
  fun p hp => hinv p (mem_kvDel st k p hp).1

theorem mobilePatternOk_stripNonDigits (m : String)
    (h : validateMobile m = true) : mobilePatternOk (stripNonDigits m) = true := by
  have h' := h
  simp only [validateMobile, Bool.and_eq_true, decide_eq_true_eq] at h'
  have hlen : 10 ≤ (stripNonDigits m).data.length := h'.1
  have hdig : ∀ c ∈ (stripNonDigits m).data, c.isDigit = true := by
    intro c hc
    have hmem : c ∈ m.data.filter Char.isDigit := by
      simpa [stripNonDigits] using hc
    exact (List.mem_filter.mp hmem).2
  have hhead : ¬ ((stripNonDigits m).data.head? = some '+') := by
    intro hh
    have h1 : '+' ∈ (stripNonDigits m).data := by
      cases hl : (stripNonDigits m).data with
      | nil => rw [hl] at hh; exact Option.noConfusion hh
      | cons c cs =>
        rw [hl] at hh
        have hc : c = '+' := by simpa using hh
        rw [hc]
        exact List.mem_cons_self _ _
    exact absurd (hdig '+' h1) (by decide)
  simp only [mobilePatternOk]
  rw [if_neg hhead]
  refine (Bool.and_eq_true _ _).mpr ⟨by simpa using hlen, ?_⟩
  exact List.all_eq_true.mpr
    (fun c hc => by simp [mobileClassChar, hdig c hc])

theorem dialogValid_mobile (nm mb ad : String)
    (h : dialogValid nm mb ad = true) : mobilePatternOk (strTrim mb) = true := by
  simp only [dialogValid, Bool.and_eq_true] at h
  exact h.1.1.2

theorem mobileInv_clientStep (st : Store) (op : ClientOp)
    (hinv : MobileInv st) : MobileInv (clientStep st op) := by
  cases op with
  | form u freshId rawName rawMobile rawAddress now =>
    simp only [clientStep, formSave]
    by_cases hv : validateMobile rawMobile = true
    · rw [if_pos hv]
      exact mobileInv_kvSet st _ _ hinv
        (mobilePatternOk_stripNonDigits rawMobile hv)
    · rw [if_neg (by simpa using hv)]
      exact hinv
  | dialog adm entryId nm mb ad now =>
    simp only [clientStep, dialogSave]
    by_cases hv : dialogValid nm mb ad = true
    · rw [if_pos hv, updateEntry]
      by_cases hsa : isSuperAdmin adm = true
      · rw [if_pos hsa]
        rcases hfind : (kvGetByPrefix st "user_entry:").find?
            (fun e => e.id == entryId) with _ | existing
        · rw [hfind]; exact hinv
        · rw [hfind]
          exact mobileInv_kvSet st _ _ hinv
            (by simpa [applyUpdate, dialogPayload] using dialogValid_mobile nm mb ad hv)
      · rw [if_neg (by simpa using hsa)]
        exact hinv
    · rw [if_neg (by simpa using hv)]
      exact hinv
  | remove u entryId =>
    simp only [clientStep]
    rw [deleteEntry]
    by_cases hsa : isSuperAdmin u = true
    · rw [if_pos hsa]
      rcases hfind : (kvGetByPrefix st "user_entry:").find?
          (fun e => e.id == entryId) with _ | existing
      · rw [hfind]; exact hinv
      · rw [hfind]; exact mobileInv_kvDel st _ hinv
    · rw [if_neg (by simpa using hsa)]
      exact hinv

/-- C6 counterexample: a form create followed by an edit-dialog update that
keeps its dashes reaches a store holding a persisted mobile that is not all
digits (the dialog trims but never digit-strips the mobile it sends). -/
theorem dialog_update_persists_nondigit_mobile :
    ∃ p ∈ clientReach dashOps, p.2.mobile.data.all Char.isDigit = false := by
  decide

/-- C6 amended: over every sequence of Create via the Entry Form, Update via
the Edit dialog and Delete, each persisted mobile matches the dialog's
accepted shape — an optional leading plus then at least ten characters that
are digits, whitespace, dashes or parentheses; creates persist all-digit
mobiles of length 10 to 15, but dialog updates may persist the other class
characters. -/
theorem client_reach_mobile_pattern (ops : List ClientOp) :
    ∀ p ∈ clientReach ops, mobilePatternOk p.2.mobile = true := by
  have hall : ∀ st : Store, MobileInv st → MobileInv (ops.foldl clientStep st) := by
    induction ops with
    | nil => intro st hinv; exact hinv
    | cons op rest ih =>
      intro st hinv
      exact ih (clientStep st op) (mobileInv_clientStep st op hinv)
  exact hall [] (fun p hp => absurd hp (List.not_mem_nil p))

/-- C6 witness: the pattern invariant evaluated on the concrete store reached
by the dashed-mobile update. -/
theorem client_reach_mobile_pattern_witness :
    mobilePatternOk
      (Entry.mk "e1" "Alice" "123-456-7890" "1 Main Street Apt 4"
        "2024-01-01T00:00:00.000Z" (some "2024-01-02T00:00:00.000Z") "U1").mobile
      = true :=
  client_reach_mobile_pattern dashOps
    (mkKey "U1" "e1",
     Entry.mk "e1" "Alice" "123-456-7890" "1 Main Street Apt 4"
       "2024-01-01T00:00:00.000Z" (some "2024-01-02T00:00:00.000Z") "U1")
    (by decide)

/-! ### Substring characterization and the filter engine -/

theorem leadsWith_iff (pat s : List Char) :
    leadsWith pat s = true ↔ ∃ r, s = pat ++ r := by
  induction pat generalizing s with
  | nil => simp [leadsWith]
  | cons p ps ih =>
    cases s with
    | nil =>
      simp only [leadsWith]
      constructor
      · intro h; exact absurd h (by simp)
      · rintro ⟨r, hr⟩; exact absurd hr (by simp)
    | cons c cs =>
      simp only [leadsWith, Bool.and_eq_true, beq_iff_eq, ih]
      constructor
      · rintro ⟨hpc, r, hr⟩
        exact ⟨r, by simp [hpc, hr]⟩
      · rintro ⟨r, hr⟩
        have h1 : p = c := by
          have := congrArg (fun l => List.head? l) hr
          simpa using this.symm
        have h2 : cs = ps ++ r := by
          have := congrArg (fun l => List.tail l) hr
          simpa using this
        exact ⟨h1, r, h2⟩

theorem occursIn_iff (pat s : List Char) :
    occursIn pat s = true ↔ ∃ l r, s = l ++ pat ++ r := by
  induction s with
  | nil =>
    rw [occursIn, leadsWith_iff]
    constructor
    · rintro ⟨r, hr⟩
      exact ⟨[], r, by simpa using hr⟩
    · rintro ⟨l, r, hr⟩
      rcases (by simpa using hr.symm : l = [] ∧ pat = [] ∧ r = []) with ⟨h1, h2, h3⟩
      exact ⟨[], by simp [h2]⟩
  | cons c cs ih =>
    rw [occursIn, Bool.or_eq_true, leadsWith_iff, ih]
    constructor
    · rintro (⟨r, hr⟩ | ⟨l, r, hr⟩)
      · exact ⟨[], r, by simpa using hr⟩
      · exact ⟨c :: l, r, by simp [hr]⟩
    · rintro ⟨l, r, hr⟩
      cases l with
      | nil => exact Or.inl ⟨r, by simpa using hr⟩
      | cons x xs =>
        have hx : c = x := by
          have := congrArg (fun t => List.head? t) hr
          simpa using this
        have hcs : cs = xs ++ pat ++ r := by
          have := congrArg (fun t => List.tail t) hr
          simpa using this
        exact Or.inr ⟨xs, r, hcs⟩

instance (pat s : String) : Decidable (SubStr pat s) :=
  decidable_of_iff (occursIn pat.data s.data = true)
    (by rw [occursIn_iff]; exact Iff.rfl)

instance (term : String) (e : Entry) : Decidable (TextMatch term e) :=
  inferInstanceAs (Decidable
    (SubStr (strToLower term) (strToLower e.name) ∨
     SubStr (strToLower term) e.mobile ∨
     SubStr (strToLower term) (strToLower e.address)))

theorem strContainsSub_iff (hay needle : String) :
    strContainsSub hay needle = true ↔ SubStr needle hay := by
  rw [strContainsSub, occursIn_iff]
  exact Iff.rfl

theorem textMatches_iff (term : String) (e : Entry) :
    textMatches term e = true ↔ TextMatch term e := by
  simp only [textMatches, TextMatch, Bool.or_eq_true, strContainsSub_iff, or_assoc]

/-- C8 counterexample: a whitespace-only term is not the identity (it filters
out every entry without a space in any field), and a term matching the raw
mobile only up to letter case is not matched; the claim fails on both. -/
theorem text_filter_blank_and_case :
    filterEntries [plainE] " " "" "" = [] ∧ ([plainE] : List Entry) ≠ [] ∧
    filterEntries [bizE] "FLOWERS" "" "" = [] ∧ ([bizE] : List Entry) ≠ [] := by
  refine ⟨by decide, by decide, by decide, by decide⟩

/-- C8 amended: with no date bounds, filtering keeps exactly the entries in
which the lowercased term occurs as a substring of the lowercased `name`, of
the raw `mobile`, or of the lowercased `address`; only the exactly-empty term
is the identity — a whitespace-only term filters like any other. -/
theorem text_filter_spec (entries : List Entry) (term : String) :
    filterEntries entries term "" "" =
      if term = "" then entries
      else entries.filter (fun e => decide (TextMatch term e)) := by
  by_cases h : term = ""
  · simp [filterEntries, h]
  · simp only [filterEntries, h, if_false]
    exact List.filter_congr (fun e he => by
      apply Bool.eq_iff_iff.mpr
      rw [decide_eq_true_eq]
      exact textMatches_iff term e)

/-- C9 counterexample: an entry timestamped at noon of the to-bound day is
excluded although it lies on the bound day, because the code compares full
millisecond timestamps against UTC midnight of the bound, not calendar
dates. -/
theorem to_bound_excludes_same_day :
    filterEntries [onBoundaryE] "" "" "2024-01-31" = [] ∧
    ([onBoundaryE] : List Entry) ≠ [] := by
  exact ⟨by decide, by decide⟩

/-- C9 amended: with no text term, filtering keeps exactly the entries whose
`dateAdded` timestamp lies within the inclusive bounds, where each bound is
parsed as a timestamp (a date-only bound meaning UTC midnight of that day) and
an empty bound means unbounded on that side; an entry whose time of day is
after midnight of the to-bound day is excluded even though its calendar date
equals the bound. -/
theorem date_filter_spec (entries : List Entry) (fromS toS : String) :
    filterEntries entries "" fromS toS =
      entries.filter (fun e => decide (InRange fromS toS e)) := by
  by_cases hf : fromS = "" <;> by_cases ht : toS = ""
  · simp only [filterEntries, if_pos rfl, if_pos hf, if_pos ht]
    refine (List.filter_eq_self.mpr (fun e he => ?_)).symm
    simp [InRange, hf, ht]
  · simp only [filterEntries, if_pos rfl, if_pos hf, if_neg ht]
    refine List.filter_congr (fun e he => ?_)
    apply Bool.eq_iff_iff.mpr
    simp [InRange, hf, ht]
  · simp only [filterEntries, if_pos rfl, if_neg hf, if_pos ht]
    refine List.filter_congr (fun e he => ?_)
    apply Bool.eq_iff_iff.mpr
    simp [InRange, hf, ht]
  · simp only [filterEntries, if_pos rfl, if_neg hf, if_neg ht]
    rw [List.filter_filter]
    refine List.filter_congr (fun e he => ?_)
    apply Bool.eq_iff_iff.mpr
    simp only [Bool.and_eq_true, decide_eq_true_eq, InRange, hf, ht, false_or]
    exact And.comm

/-- C7: on the claim's entry the export routine emits the header row and then
the line with the name quoted but its embedded double quotes NOT doubled
(only `address` is escaped in the code), so the produced line differs from the
specified `"A ""B""",5551234567,"1 Main St",1/1/2024`; the other fields and
the header behave as claimed. -/
theorem exportCSV_name_quotes_not_escaped :
    exportCSV [claimCsvEntry] =
      "Name,Mobile No,Address,Date Added\n\"A \"B\"\",5551234567,\"1 Main St\",1/1/2024" ∧
    csvRow claimCsvEntry ≠ "\"A \"\"B\"\"\",5551234567,\"1 Main St\",1/1/2024" ∧
    csvEscape "1 Main \"St\"" = "1 Main \"\"St\"\"" ∧
    formatDateLocale "2024-01-01" = "1/1/2024" := by
  refine ⟨by decide, by decide, by decide, by decide⟩
